import Mathlib

/-!
Shallow embedding of the decision pipeline of AdvancedCryptoTradingAgent
(src/advanced_crypto_trading_agent). Python floats are modelled as rationals
(ℚ) and datetimes/timedeltas as rationals on one time axis; NaN sentinels in
indicator outputs are modelled as `none : Option ℚ`; Python exceptions are
modelled with `Except`. Each definition mirrors one source function.
-/

namespace CryptoAgent

/-- Mirrors `IndicatorResult` of analysis/technical.py. -/
structure IndicatorResult where
  value : ℚ
  signal : ℚ
deriving DecidableEq

/-- Mirrors `StrategyContext` of strategy/hft_strategy.py (fields only;
`composite_signal` is the derived property below). -/
structure StrategyContext where
  technical : IndicatorResult
  fundamental : ℚ
  sentiment : ℚ
deriving DecidableEq

/-- Mirrors the `composite_signal` property of `StrategyContext`:
`max(min(technical.signal * 0.5 + fundamental * 0.3 + sentiment * 0.2, 1.0), -1.0)`. -/
def composite_signal (ctx : StrategyContext) : ℚ :=
  max (min (ctx.technical.signal * 0.5 + ctx.fundamental * 0.3 + ctx.sentiment * 0.2) 1) (-1)

/-- Modelled from the spec: `clamp(x, lo, hi)` as the spec phrases the
composite-signal bound, for comparison with the source expression. -/
def clampSpec (lo hi x : ℚ) : ℚ :=
  max lo (min x hi)

/-- Mirrors `RiskConfig` of config.py (fields used by the risk manager). -/
structure RiskConfig where
  max_position_size : ℚ
  max_leverage : ℤ
  max_drawdown : ℚ
  take_profit : ℚ
  stop_loss : ℚ
  cooldown : ℚ
deriving DecidableEq

/-- Mirrors `PositionState` of risk/risk_manager.py. -/
structure PositionState where
  size : ℚ
  entry_price : ℚ
  last_trade_time : ℚ
deriving DecidableEq

/-- Mirrors the mutable state of a `RiskManager` instance
(config passed to `__init__`, `_position`, `_peak_equity`). -/
structure RiskManager where
  config : RiskConfig
  position : PositionState
  peak_equity : ℚ
deriving DecidableEq

/-- Mirrors `RiskManager.update_equity`: advances `_peak_equity` when
`equity > peak`; the drawdown computation only feeds a log warning and
changes no state, so it is dropped from the state transition. -/
def update_equity (rm : RiskManager) (equity : ℚ) : RiskManager :=
  if rm.peak_equity < equity then { rm with peak_equity := equity } else rm

/-- Mirrors `RiskManager.can_trade`: `now - last_trade_time >= cooldown`.
The source reads state only and returns a bool; purity is reflected by the
type (no successor state is produced). -/
def can_trade (rm : RiskManager) (now : ℚ) : Bool :=
  rm.config.cooldown ≤ now - rm.position.last_trade_time

/-- Mirrors `RiskManager.position_size`:
`size = min(abs(signal_strength), 1.0) * max_position_size * equity` then
`max(min(size, equity * max_position_size), 0.0)`. -/
def position_size (rm : RiskManager) (equity signal_strength : ℚ) : ℚ :=
  let size := min |signal_strength| 1 * rm.config.max_position_size * equity
  max (min size (equity * rm.config.max_position_size)) 0

/-- Mirrors `RiskManager.record_trade`: unconditionally overwrites the
position state with the given size, price and timestamp. -/
def record_trade (rm : RiskManager) (size price now : ℚ) : RiskManager :=
  { rm with position := { size := size, entry_price := price, last_trade_time := now } }

/-- Mirrors `RiskManager.stop_levels`: `(take_profit, stop_loss)` levels
computed from the entry price. -/
def stop_levels (rm : RiskManager) (entry_price : ℚ) : ℚ × ℚ :=
  (entry_price * (1 + rm.config.take_profit), entry_price * (1 - rm.config.stop_loss))

/-- The state-mutating operations of `RiskManager` (`can_trade`,
`position_size` and `stop_levels` read state without writing it). -/
inductive RiskOp where
  | updateEquity (equity : ℚ)
  | recordTrade (size price now : ℚ)
deriving DecidableEq

/-- One mutating call applied to a `RiskManager` state. -/
def applyOp (rm : RiskManager) : RiskOp → RiskManager
  | .updateEquity equity => update_equity rm equity
  | .recordTrade size price now => record_trade rm size price now

/-- Mirrors `normalize_metric` of analysis/fundamental.py: empty series map
to 0; otherwise min-max scaling of the latest value over the whole series,
with 0 returned when maximum equals minimum. -/
def normalize_metric : List ℚ → ℚ
  | [] => 0
  | v :: vs =>
    let minimum := vs.foldl min v
    let maximum := vs.foldl max v
    if maximum = minimum then 0
    else 2 * (((v :: vs).getLastD 0 - minimum) / (maximum - minimum)) - 1

/-- Mirrors `SentimentReading` of analysis/sentiment.py. -/
structure SentimentReading where
  source : String
  score : ℚ
deriving DecidableEq

/-- Mirrors `exponential_smoothing`: `alpha * current + (1 - alpha) * previous`. -/
def exponential_smoothing (previous current alpha : ℚ) : ℚ :=
  alpha * current + (1 - alpha) * previous

/-- Mirrors `sentiment_by_source.get(reading.source, 0.0)`: lookup with
default 0 on the association list modelling the dict. -/
def getSource : List (String × ℚ) → String → ℚ
  | [], _ => 0
  | (k, x) :: rest, s => if k = s then x else getSource rest s

/-- Mirrors `sentiment_by_source[reading.source] = value`: replace the bound
value in place, or append a new key. -/
def setSource : List (String × ℚ) → String → ℚ → List (String × ℚ)
  | [], s, v => [(s, v)]
  | (k, x) :: rest, s, v =>
    if k = s then (k, v) :: rest else (k, x) :: setSource rest s v

/-- One iteration of the reading loop in `aggregate_sentiment`. -/
def smoothStep (alpha : ℚ) (acc : List (String × ℚ)) (r : SentimentReading) :
    List (String × ℚ) :=
  setSource acc r.source (exponential_smoothing (getSource acc r.source) r.score alpha)

/-- Mirrors `aggregate_sentiment`: smooth per source (seeded at 0) in input
order, then return the unweighted mean across sources, 0 when there are no
readings. -/
def aggregate_sentiment (readings : List SentimentReading) (alpha : ℚ) : ℚ :=
  let m := readings.foldl (smoothStep alpha) []
  if m.isEmpty then 0
  else (m.map Prod.snd).sum / m.length

/-- Mirrors the inner helper `compute_rsi` of `relative_strength_index` in
analysis/technical.py: 100 when the average loss is 0, otherwise
`100 - 100 / (1 + rs)` with `rs = avg_gain / avg_loss`. -/
def computeRsi (avg_gain avg_loss : ℚ) : ℚ :=
  if avg_loss = 0 then 100 else 100 - 100 / (1 + avg_gain / avg_loss)

/-- Mirrors the gains list of `relative_strength_index`: a leading 0, then
`max(delta, 0)` for each consecutive delta of the input series. -/
def gainsOf (values : List ℚ) : List ℚ :=
  0 :: List.zipWith (fun prev cur => max (cur - prev) 0) values values.tail

/-- Mirrors the losses list of `relative_strength_index`: a leading 0, then
`abs(min(delta, 0))` for each consecutive delta. -/
def lossesOf (values : List ℚ) : List ℚ :=
  0 :: List.zipWith (fun prev cur => |min (cur - prev) 0|) values values.tail

/-- Mirrors the Wilder smoothing loop of `relative_strength_index`: one RSI
output per remaining (gain, loss) pair, each recursing on the smoothed
averages `(avg * (period - 1) + new) / period`. -/
def rsiSmooth (period : ℕ) (avg_gain avg_loss : ℚ) : List (ℚ × ℚ) → List ℚ
  | [] => []
  | gl :: rest =>
    let ag := (avg_gain * ((period : ℚ) - 1) + gl.1) / (period : ℚ)
    let al := (avg_loss * ((period : ℚ) - 1) + gl.2) / (period : ℚ)
    computeRsi ag al :: rsiSmooth period ag al rest

/-- Mirrors `relative_strength_index` of analysis/technical.py. The NaN
sentinels of the first `period` outputs are `none`; the two ValueError
conditions are `Except.error`; `period = 0` models the Python check
`period <= 0` for the natural-number parameter. -/
def relative_strength_index (values : List ℚ) (period : ℕ) :
    Except String (List (Option ℚ)) :=
  if period = 0 then .error "Period must be positive"
  else if values.length < period + 1 then .error "Not enough data for RSI calculation"
  else
    let gains := gainsOf values
    let losses := lossesOf values
    let avg_gain := ((gains.drop 1).take period).sum / (period : ℚ)
    let avg_loss := ((losses.drop 1).take period).sum / (period : ℚ)
    let rest := (gains.drop (period + 1)).zip (losses.drop (period + 1))
    .ok (List.replicate period none ++
      some (computeRsi avg_gain avg_loss) ::
        (rsiSmooth period avg_gain avg_loss rest).map some)

/-- Python exception kinds the dashboard caller distinguishes. -/
inductive PyError where
  | valueError (msg : String)
  | indexError
deriving DecidableEq

/-- Mirrors the true-range loop of `average_true_range` for indices from 1:
`max(high - low, abs(high - prev_close), abs(low - prev_close))`, where the
third list supplies the previous closes. -/
def trLoop : List ℚ → List ℚ → List ℚ → List ℚ
  | h :: hs, l :: ls, pc :: pcs =>
    max (h - l) (max |h - pc| |l - pc|) :: trLoop hs ls pcs
  | _, _, _ => []

/-- Mirrors the ATR smoothing loop: `atr = (atr * (period - 1) + tr) / period`
per remaining true range. -/
def atrSmooth (period : ℕ) (atr : ℚ) : List ℚ → List ℚ
  | [] => []
  | tr :: rest =>
    let a := (atr * ((period : ℚ) - 1) + tr) / (period : ℚ)
    a :: atrSmooth period a rest

/-- Mirrors `average_true_range` of analysis/technical.py, with the Python
runtime errors explicit: after the two declared ValueError checks, the
unguarded accesses `highs[0]` (empty input) and the seed assignment
`atr_values[period - 1] = atr` (fewer than `period` rows) raise IndexError,
in that evaluation order. -/
def average_true_range (highs lows closes : List ℚ) (period : ℕ) :
    Except PyError (List (Option ℚ)) :=
  if highs.length = lows.length ∧ lows.length = closes.length then
    if period = 0 then .error (.valueError "Period must be positive")
    else
      match highs, lows with
      | h0 :: htl, l0 :: ltl =>
        let true_ranges := (h0 - l0) :: trLoop htl ltl closes
        let atr := (true_ranges.take period).sum / (period : ℚ)
        if period - 1 < highs.length then
          .ok (List.replicate (period - 1) none ++
            some atr :: (atrSmooth period atr (true_ranges.drop period)).map some)
        else .error .indexError
      | _, _ => .error .indexError
  else .error (.valueError "Input arrays must have the same length")

/-- Mirrors the ATR block of `RecommendationEngine.build_recommendation` in
web/dashboard.py: `average_true_range` at the default period 14 inside a
try/except that catches only ValueError (yielding the NaN fallback, `none`);
the last entry is read when the list is non-empty; any other exception
escapes the recommendation builder. -/
def recommendation_atr (highs lows closes : List ℚ) : Except PyError (Option ℚ) :=
  match average_true_range highs lows closes 14 with
  | .ok vals => .ok (vals.getLastD none)
  | .error (.valueError _) => .ok none
  | .error .indexError => .error .indexError

/-- Mirrors `ExecutionReport` of execution/execution_engine.py, restricted to
the fields the decision cycle reads (`send_order` draws the fill at random,
so the report is an input of the embedded cycle; the nested `Order` echo is
not read back by any caller). -/
structure ExecutionReport where
  status : String
  executed_quantity : ℚ
  avg_price : ℚ
deriving DecidableEq

/-- Order side chosen by `AdvancedCryptoTradingAgent.trade`. -/
inductive Side where
  | BUY
  | SELL
deriving DecidableEq

/-- Mirrors the side-selection expression of trader.py:
`side = "BUY" if signal > 0 else "SELL"`. -/
def sideOf (signal : ℚ) : Side :=
  if 0 < signal then Side.BUY else Side.SELL

/-- Observable outputs of one decision cycle besides the risk-manager state:
the order that was sent and the stop levels that were computed. -/
structure TradeDecision where
  side : Side
  order_quantity : ℚ
  order_price : ℚ
  stops : ℚ × ℚ
deriving DecidableEq

/-- Mirrors the decision part of `AdvancedCryptoTradingAgent.trade` after the
composite signal is known: `signal` is `context.composite_signal`, `price` is
`snapshot.prices[-1]`, `report` is what `send_order` returned, and
`now_check` / `now_record` are the wall-clock instants the two defaulted
`datetime.utcnow()` calls observe. `none` is an aborted cycle (cooldown
active, or zero position size); otherwise the sent order, the stop levels and
the risk-manager state after `record_trade` are returned. -/
def trade (rm : RiskManager) (signal price : ℚ) (report : ExecutionReport)
    (now_check now_record : ℚ) : Option (TradeDecision × RiskManager) :=
  if can_trade rm now_check then
    let equity : ℚ := 1
    let ps := position_size rm equity signal
    if ps = 0 then none
    else
      let side := sideOf signal
      let rm2 := record_trade rm (report.executed_quantity * price) report.avg_price now_record
      some (⟨side, ps / price, price, stop_levels rm2 report.avg_price⟩, rm2)
  else none

end CryptoAgent

namespace CryptoAgent

/-- C2: for every `StrategyContext`, with no range restriction on the inputs,
`composite_signal` lies in `[-1, 1]` and equals the clamp of the weighted sum
`technical.signal * 0.5 + fundamental * 0.3 + sentiment * 0.2` to `[-1, 1]`. -/
theorem composite_signal_bounded_clamp (ctx : StrategyContext) :
    -1 ≤ composite_signal ctx ∧ composite_signal ctx ≤ 1 ∧
      composite_signal ctx =
        clampSpec (-1) 1
          (ctx.technical.signal * 0.5 + ctx.fundamental * 0.3 + ctx.sentiment * 0.2) := by
  refine ⟨le_max_right _ _, max_le (min_le_right _ _) (by norm_num), ?_⟩
  unfold composite_signal clampSpec
  exact max_comm _ _

/-- C5: every mutating `RiskManager` operation (equity updates with arbitrary
arguments, with trade recordings interleaved) leaves `peak_equity` no smaller
than before; hence peak equity is monotonically non-decreasing along any call
sequence. -/
theorem peak_equity_monotone (rm : RiskManager) (op : RiskOp) (ops : List RiskOp) :
    rm.peak_equity ≤ (applyOp rm op).peak_equity ∧
      rm.peak_equity ≤ (ops.foldl applyOp rm).peak_equity := by
  have hstep : ∀ (s : RiskManager) (o : RiskOp), s.peak_equity ≤ (applyOp s o).peak_equity := by
    intro s o
    cases o with
    | updateEquity e =>
        simp only [applyOp, update_equity]
        split

        case isTrue h => exact le_of_lt h
        case isFalse h => exact le_refl _
    | recordTrade size price now => exact le_refl _
  refine ⟨hstep rm op, ?_⟩
  induction ops generalizing rm with
  | nil => exact le_refl _
  | cons o rest ih =>
      exact le_trans (hstep rm o) (ih (applyOp rm o))

/-- Concrete risk configuration for evaluations: the defaults of
`RiskConfig` in config.py, the five-minute cooldown expressed in seconds. -/
def rc0 : RiskConfig := ⟨3/20, 5, 3/100, 1/20, 1/50, 300⟩

/-- A freshly constructed risk manager with the default configuration, its
position state zeroed at time 0 and peak equity 1. -/
def rm0 : RiskManager := ⟨rc0, ⟨0, 0, 0⟩, 1⟩

/-- A concrete execution report: 2 units filled at average price 4. -/
def report0 : ExecutionReport := ⟨"PARTIALLY_FILLED", 2, 4⟩

/-- The decision produced by the concrete cycle used below. -/
def d0 : TradeDecision := ⟨Side.BUY, 1/40, 3, (21/5, 98/25)⟩

/-- The risk-manager state after the concrete cycle used below. -/
def rm1 : RiskManager := ⟨rc0, ⟨6, 4, 1000⟩, 1⟩

/-- C6: `can_trade now` is true iff `now - last_trade_time ≥ cooldown` (and
is a pure read of the state, as its type shows); for a strictly positive
cooldown it is false at the timestamp of the immediately preceding
`record_trade`, and true at any timestamp at least a cooldown away from it. -/
theorem can_trade_cooldown (rm : RiskManager) (size price t now : ℚ) :
    (can_trade rm now = true ↔ rm.config.cooldown ≤ now - rm.position.last_trade_time) ∧
      (0 < rm.config.cooldown → can_trade (record_trade rm size price t) t = false) ∧
      (rm.config.cooldown ≤ now - t → can_trade (record_trade rm size price t) now = true) := by
  refine ⟨by simp [can_trade], ?_, ?_⟩
  · intro h
    simp only [can_trade, record_trade, decide_eq_false_iff_not, not_le, sub_self]
    exact h
  · intro h
    simpa [can_trade, record_trade] using h

/-- Witness for C6 at the default configuration: a trade recorded at time
1000 blocks trading at 1000 and allows it again at 1300 (cooldown 300). -/
theorem can_trade_cooldown_witness :
    0 < rm0.config.cooldown ∧
      can_trade (record_trade rm0 6 4 1000) 1000 = false ∧
      can_trade (record_trade rm0 6 4 1000) 1300 = true :=
  ⟨by norm_num [rm0, rc0],
    (can_trade_cooldown rm0 6 4 1000 1000).2.1 (by norm_num [rm0, rc0]),
    (can_trade_cooldown rm0 6 4 1000 1300).2.2 (by norm_num [rm0, rc0])⟩

/-- C7: `position_size` computes
`min(|signal_strength|, 1) * max_position_size * equity` re-clamped to
`[0, equity * max_position_size]`, for every equity and signal strength; for
a non-negative configured maximum, equity 1 and out-of-range signal strength
2 it returns exactly `max_position_size * equity`. -/
theorem position_size_clamped (rm : RiskManager) (equity signal_strength : ℚ) :
    position_size rm equity signal_strength =
      clampSpec 0 (equity * rm.config.max_position_size)
        (min |signal_strength| 1 * rm.config.max_position_size * equity) ∧
      (0 ≤ rm.config.max_position_size →
        position_size rm 1 2 = rm.config.max_position_size * 1) := by
  constructor
  · unfold position_size clampSpec
    exact max_comm _ _
  · intro h
    unfold position_size
    norm_num
    exact h

/-- Witness for C7 at the default configuration (max position size 0.15). -/
theorem position_size_clamped_witness :
    0 ≤ rm0.config.max_position_size ∧
      position_size rm0 1 2 = rm0.config.max_position_size * 1 :=
  ⟨by norm_num [rm0, rc0], (position_size_clamped rm0 1 2).2 (by norm_num [rm0, rc0])⟩

/-- C8: whenever the trade cycle sends an order, the side is BUY exactly when
the composite signal is strictly positive and SELL otherwise; the
side-selection expression routes a signal of exactly 0 to SELL (a cycle only
reaches side selection when `can_trade` holds and the position size is
nonzero). -/
theorem trade_side_from_sign (rm : RiskManager) (signal price : ℚ)
    (report : ExecutionReport) (now_check now_record : ℚ)
    (d : TradeDecision) (rm2 : RiskManager)
    (h : trade rm signal price report now_check now_record = some (d, rm2)) :
    d.side = sideOf signal ∧ (0 < signal → d.side = Side.BUY) ∧
      (signal ≤ 0 → d.side = Side.SELL) ∧ sideOf 0 = Side.SELL := by
  have hside : d.side = sideOf signal := by
    simp only [trade] at h
    split at h
    · split at h
      · exact absurd h (by simp)
      · simp only [Option.some.injEq, Prod.mk.injEq] at h
        rw [← h.1]
    · exact absurd h (by simp)
  refine ⟨hside, ?_, ?_, rfl⟩
  · intro hpos
    rw [hside]
    simp [sideOf, hpos]
  · intro hnp
    rw [hside]
    simp [sideOf, not_lt.mpr hnp]

/-- Evaluation of the concrete decision cycle used by the witnesses: fresh
default-configured manager, signal 1/2, latest close 3, fill report
`report0`, both clock reads at 1000. -/
theorem trade_cycle_eval : trade rm0 (1/2) 3 report0 1000 1000 = some (d0, rm1) := by
  norm_num [trade, can_trade, position_size, record_trade, stop_levels, sideOf,
    rm0, rc0, report0, d0, rm1, abs, max_def, min_def]

/-- Witness for C8: a concrete cycle with positive signal 1/2 sends a BUY
order, matching the side-selection expression. -/
theorem trade_side_from_sign_witness :
    trade rm0 (1/2) 3 report0 1000 1000 = some (d0, rm1) ∧ d0.side = sideOf (1/2) :=
  ⟨trade_cycle_eval,
    (trade_side_from_sign rm0 (1/2) 3 report0 1000 1000 d0 rm1 trade_cycle_eval).1⟩

/-- C1 counterexample: in the concrete cycle below the executed quantity is
2, the requested price 3 and the average fill price 4; the recorded position
size is 2 * 3 = 6 (executed quantity times requested price), not
2 * 4 = 8, so `record_trade` does not receive executed quantity times
avg_price as the claim states. -/
theorem trade_record_size_counterexample :
    trade rm0 (1/2) 3 report0 1000 1000 = some (d0, rm1) ∧
      rm1.position.size = report0.executed_quantity * 3 ∧
      report0.executed_quantity * report0.avg_price = 8 ∧
      rm1.position.size ≠ report0.executed_quantity * report0.avg_price := by
  refine ⟨trade_cycle_eval, by norm_num [rm1, rc0, report0], by norm_num [report0],
    by norm_num [rm1, rc0, report0]⟩

/-- C1 (amended): after `send_order` returns, `record_trade` receives a size
equal to the executed quantity multiplied by the requested order price (the
latest close), the recorded entry price is `avg_price`, and the stop levels
are computed from `avg_price`. -/
theorem trade_records_requested_price (rm : RiskManager) (signal price : ℚ)
    (report : ExecutionReport) (now_check now_record : ℚ)
    (d : TradeDecision) (rm2 : RiskManager)
    (h : trade rm signal price report now_check now_record = some (d, rm2)) :
    rm2.position.size = report.executed_quantity * price ∧
      rm2.position.entry_price = report.avg_price ∧
      d.stops = (report.avg_price * (1 + rm.config.take_profit),
        report.avg_price * (1 - rm.config.stop_loss)) := by
  simp only [trade] at h
  split at h
  · split at h
    · exact absurd h (by simp)
    · simp only [Option.some.injEq, Prod.mk.injEq] at h
      obtain ⟨hd, hrm⟩ := h
      subst hrm
      exact ⟨rfl, rfl, by rw [← hd]; rfl⟩
  · exact absurd h (by simp)

/-- Witness for C1 (amended) on the concrete cycle: executed quantity 2
times requested price 3 is recorded, entry price 4 is the fill price. -/
theorem trade_records_requested_price_witness :
    trade rm0 (1/2) 3 report0 1000 1000 = some (d0, rm1) ∧
      rm1.position.size = report0.executed_quantity * 3 ∧
      rm1.position.entry_price = report0.avg_price := by
  have hc := trade_records_requested_price rm0 (1/2) 3 report0 1000 1000 d0 rm1 trade_cycle_eval
  exact ⟨trade_cycle_eval, hc.1, hc.2.1⟩

/-- Folding `min` over a list whose elements all equal the seed returns the
seed. -/
theorem foldl_min_const (vs : List ℚ) (v : ℚ) (h : ∀ x ∈ vs, x = v) :
    vs.foldl min v = v := by
  induction vs with
  | nil => rfl
  | cons x rest ih =>
      have hx : x = v := h x (List.mem_cons_self x rest)
      simp only [List.foldl_cons, hx, min_self]
      exact ih fun y hy => h y (List.mem_cons_of_mem x hy)

/-- Folding `max` over a list whose elements all equal the seed returns the
seed. -/
theorem foldl_max_const (vs : List ℚ) (v : ℚ) (h : ∀ x ∈ vs, x = v) :
    vs.foldl max v = v := by
  induction vs with
  | nil => rfl
  | cons x rest ih =>
      have hx : x = v := h x (List.mem_cons_self x rest)
      simp only [List.foldl_cons, hx, max_self]
      exact ih fun y hy => h y (List.mem_cons_of_mem x hy)

/-- C4: the neutral-value edge cases: `normalize_metric` returns exactly 0 on
an empty series and on any constant series (max equals min); the RSI helper
returns exactly 100 whenever the smoothed average loss is exactly 0; and
`aggregate_sentiment` returns exactly 0 on an empty sequence of readings. -/
theorem neutral_edge_cases (values : List ℚ) (c avg_gain alpha : ℚ)
    (hconst : ∀ x ∈ values, x = c) :
    normalize_metric [] = 0 ∧ normalize_metric values = 0 ∧
      computeRsi avg_gain 0 = 100 ∧ aggregate_sentiment [] alpha = 0 := by
  refine ⟨rfl, ?_, by simp [computeRsi], rfl⟩
  cases values with
  | nil => rfl
  | cons v vs =>
      have hall : ∀ x ∈ vs, x = v := by
        intro x hx
        rw [hconst x (List.mem_cons_of_mem v hx), hconst v (List.mem_cons_self v vs)]
      simp only [normalize_metric]
      rw [foldl_min_const vs v hall, foldl_max_const vs v hall]
      simp

/-- Witness for C4 at the constant series `[2, 2]`, average gain 5 and
smoothing factor 1/3. -/
theorem neutral_edge_cases_witness :
    (∀ x ∈ ([2, 2] : List ℚ), x = 2) ∧
      (normalize_metric [] = 0 ∧ normalize_metric [2, 2] = 0 ∧
        computeRsi 5 0 = 100 ∧ aggregate_sentiment [] (1/3) = 0) :=
  ⟨by simp, neutral_edge_cases [2, 2] 2 5 (1/3) (by simp)⟩

/-- A convex combination with coefficient in `[0, 1]` of two values in
`[-1, 1]` stays in `[-1, 1]`. -/
theorem exponential_smoothing_bound (previous current alpha : ℚ)
    (hp : -1 ≤ previous ∧ previous ≤ 1) (hc : -1 ≤ current ∧ current ≤ 1)
    (ha : 0 ≤ alpha ∧ alpha ≤ 1) :
    -1 ≤ exponential_smoothing previous current alpha ∧
      exponential_smoothing previous current alpha ≤ 1 := by
  unfold exponential_smoothing
  constructor
  · nlinarith [mul_nonneg (by linarith : (0:ℚ) ≤ alpha) (by linarith : (0:ℚ) ≤ 1 + current),
      mul_nonneg (by linarith : (0:ℚ) ≤ 1 - alpha) (by linarith : (0:ℚ) ≤ 1 + previous)]
  · nlinarith [mul_nonneg (by linarith : (0:ℚ) ≤ alpha) (by linarith : (0:ℚ) ≤ 1 - current),
      mul_nonneg (by linarith : (0:ℚ) ≤ 1 - alpha) (by linarith : (0:ℚ) ≤ 1 - previous)]

/-- `getSource` returns a value of the accumulator or the seed 0, hence stays
in `[-1, 1]` when all accumulator values do. -/
theorem getSource_bound (acc : List (String × ℚ)) (s : String)
    (hacc : ∀ p ∈ acc, -1 ≤ p.2 ∧ p.2 ≤ 1) :
    -1 ≤ getSource acc s ∧ getSource acc s ≤ 1 := by
  induction acc with
  | nil => norm_num [getSource]
  | cons q rest ih =>
      simp only [getSource]
      split
      · exact hacc q (List.mem_cons_self q rest)
      · exact ih fun p hp => hacc p (List.mem_cons_of_mem q hp)

/-- `setSource` preserves the bound `[-1, 1]` on all stored values when the
written value satisfies it. -/
theorem setSource_bound (acc : List (String × ℚ)) (s : String) (v : ℚ)
    (hacc : ∀ p ∈ acc, -1 ≤ p.2 ∧ p.2 ≤ 1) (hv : -1 ≤ v ∧ v ≤ 1) :
    ∀ p ∈ setSource acc s v, -1 ≤ p.2 ∧ p.2 ≤ 1 := by
  induction acc with
  | nil =>
      intro p hp
      simp only [setSource, List.mem_singleton] at hp
      rw [hp]
      exact hv
  | cons q rest ih =>
      intro p hp
      simp only [setSource] at hp
      split at hp
      · rcases List.mem_cons.mp hp with h1 | h2
        · rw [h1]
          exact hv
        · exact hacc p (List.mem_cons_of_mem q h2)
      · rcases List.mem_cons.mp hp with h1 | h2
        · rw [h1]
          exact hacc q (List.mem_cons_self q rest)
        · exact ih (fun r hr => hacc r (List.mem_cons_of_mem q hr)) p h2

/-- The smoothing fold keeps every per-source value in `[-1, 1]` when all
scores and the smoothing factor are in range. -/
theorem smooth_fold_bound (alpha : ℚ) (ha : 0 ≤ alpha ∧ alpha ≤ 1)
    (readings : List SentimentReading)
    (hr : ∀ r ∈ readings, -1 ≤ r.score ∧ r.score ≤ 1)
    (acc : List (String × ℚ)) (hacc : ∀ p ∈ acc, -1 ≤ p.2 ∧ p.2 ≤ 1) :
    ∀ p ∈ readings.foldl (smoothStep alpha) acc, -1 ≤ p.2 ∧ p.2 ≤ 1 := by
  induction readings generalizing acc with
  | nil => exact hacc
  | cons r rest ih =>
      simp only [List.foldl_cons]
      refine ih (fun x hx => hr x (List.mem_cons_of_mem r hx)) _ ?_
      exact setSource_bound acc r.source _ hacc
        (exponential_smoothing_bound _ _ _ (getSource_bound acc r.source hacc)
          (hr r (List.mem_cons_self r rest)) ha)

/-- The sum of a list of rationals in `[-1, 1]` is between `-length` and
`length`. -/
theorem sum_bound_of_mem (l : List ℚ) (h : ∀ x ∈ l, -1 ≤ x ∧ x ≤ 1) :
    -(l.length : ℚ) ≤ l.sum ∧ l.sum ≤ (l.length : ℚ) := by
  induction l with
  | nil => norm_num
  | cons x rest ih =>
      have hx := h x (List.mem_cons_self x rest)
      have hrest := ih fun y hy => h y (List.mem_cons_of_mem x hy)
      simp only [List.sum_cons, List.length_cons]
      push_cast
      constructor
      · linarith [hrest.1]
      · linarith [hrest.2]

/-- C10: for every finite sequence of readings whose scores lie in `[-1, 1]`
and every smoothing factor in `[0, 1]`, `aggregate_sentiment` stays in
`[-1, 1]`: each per-source smoothed state is a convex combination seeded at 0
and the result is an unweighted mean of such states. -/
theorem aggregate_sentiment_bounded (readings : List SentimentReading) (alpha : ℚ)
    (hr : ∀ r ∈ readings, -1 ≤ r.score ∧ r.score ≤ 1)
    (ha : 0 ≤ alpha) (ha1 : alpha ≤ 1) :
    -1 ≤ aggregate_sentiment readings alpha ∧ aggregate_sentiment readings alpha ≤ 1 := by
  have hm : ∀ p ∈ readings.foldl (smoothStep alpha) [], -1 ≤ p.2 ∧ p.2 ≤ 1 :=
    smooth_fold_bound alpha ⟨ha, ha1⟩ readings hr [] (by simp)
  by_cases hempty : (readings.foldl (smoothStep alpha) []).isEmpty
  · simp only [aggregate_sentiment, hempty, if_true]
    norm_num
  · simp only [aggregate_sentiment, hempty, Bool.false_eq_true, if_false]
    set m := readings.foldl (smoothStep alpha) [] with hmdef
    have hvals : ∀ x ∈ m.map Prod.snd, -1 ≤ x ∧ x ≤ 1 := by
      intro x hx
      obtain ⟨p, hp, hpx⟩ := List.mem_map.mp hx
      rw [← hpx]
      exact hm p hp
    have hsum := sum_bound_of_mem (m.map Prod.snd) hvals
    rw [List.length_map] at hsum
    have hlen : 0 < (m.length : ℚ) := by
      have : m ≠ [] := fun hnil => hempty (by rw [hmdef] at hnil ⊢; simp [hnil])
      have : 0 < m.length := List.length_pos.mpr this
      exact_mod_cast this
    constructor
    · rw [le_div_iff₀ hlen]
      linarith [hsum.1]
    · rw [div_le_one hlen]
      exact hsum.2

/-- `computeRsi` of non-negative averages lies in `[0, 100]`. -/
theorem computeRsi_bound (avg_gain avg_loss : ℚ) (hg : 0 ≤ avg_gain) (hl : 0 ≤ avg_loss) :
    0 ≤ computeRsi avg_gain avg_loss ∧ computeRsi avg_gain avg_loss ≤ 100 := by
  unfold computeRsi
  split
  · norm_num
  · rename_i hne
    have hlpos : 0 < avg_loss := lt_of_le_of_ne hl (Ne.symm hne)
    have hrs : 0 ≤ avg_gain / avg_loss := div_nonneg hg hl
    have h1 : 0 < 1 + avg_gain / avg_loss := by linarith
    have h2 : 100 / (1 + avg_gain / avg_loss) ≤ 100 := by
      rw [div_le_iff₀ h1]
      nlinarith
    have h3 : 0 < 100 / (1 + avg_gain / avg_loss) := by positivity
    constructor <;> linarith

/-- The Wilder smoothing loop keeps every output in `[0, 100]` as long as the
running averages start non-negative and all remaining gains and losses are
non-negative: the smoothed averages stay non-negative at every step. -/
theorem rsiSmooth_bound (period : ℕ) (hp : 0 < period) :
    ∀ pairs : List (ℚ × ℚ), (∀ gl ∈ pairs, 0 ≤ gl.1 ∧ 0 ≤ gl.2) →
      ∀ avg_gain avg_loss : ℚ, 0 ≤ avg_gain → 0 ≤ avg_loss →
        ∀ x ∈ rsiSmooth period avg_gain avg_loss pairs, 0 ≤ x ∧ x ≤ 100 := by
  intro pairs
  induction pairs with
  | nil =>
      intro _ ag al _ _ x hx
      simp [rsiSmooth] at hx
  | cons gl rest ih =>
      intro hpairs ag al hg hl x hx
      have hper : (0:ℚ) ≤ (period : ℚ) - 1 := by
        have h1 : (1:ℚ) ≤ (period : ℚ) := by exact_mod_cast hp
        linarith
      have hpq : (0:ℚ) < (period : ℚ) := by exact_mod_cast hp
      have hglb := hpairs gl (List.mem_cons_self gl rest)
      have hg2 : 0 ≤ (ag * ((period : ℚ) - 1) + gl.1) / (period : ℚ) :=
        div_nonneg (by linarith [mul_nonneg hg hper, hglb.1]) (le_of_lt hpq)
      have hl2 : 0 ≤ (al * ((period : ℚ) - 1) + gl.2) / (period : ℚ) :=
        div_nonneg (by linarith [mul_nonneg hl hper, hglb.2]) (le_of_lt hpq)
      simp only [rsiSmooth] at hx
      rcases List.mem_cons.mp hx with h1 | h2
      · rw [h1]
        exact computeRsi_bound _ _ hg2 hl2
      · exact ih (fun p hp2 => hpairs p (List.mem_cons_of_mem gl hp2)) _ _ hg2 hl2 x h2

/-- The smoothing loop yields one output per input pair. -/
theorem rsiSmooth_length (period : ℕ) :
    ∀ (pairs : List (ℚ × ℚ)) (avg_gain avg_loss : ℚ),
      (rsiSmooth period avg_gain avg_loss pairs).length = pairs.length := by
  intro pairs
  induction pairs with
  | nil => intro ag al; rfl
  | cons gl rest ih =>
      intro ag al
      simp only [rsiSmooth, List.length_cons, ih]

/-- Every element produced by zipping with a non-negative binary function is
non-negative. -/
theorem zipWith_mem_nonneg (f : ℚ → ℚ → ℚ) (hf : ∀ a b, 0 ≤ f a b) :
    ∀ (xs ys : List ℚ), ∀ x ∈ List.zipWith f xs ys, 0 ≤ x := by
  intro xs
  induction xs with
  | nil =>
      intro ys x hx
      simp at hx
  | cons a as ih =>
      intro ys x hx
      cases ys with
      | nil => simp at hx
      | cons b bs =>
          simp only [List.zipWith_cons_cons] at hx
          rcases List.mem_cons.mp hx with h1 | h2
          · rw [h1]
            exact hf a b
          · exact ih bs x h2

/-- All entries of the gains list are non-negative. -/
theorem gainsOf_nonneg (values : List ℚ) : ∀ x ∈ gainsOf values, 0 ≤ x := by
  intro x hx
  simp only [gainsOf] at hx
  rcases List.mem_cons.mp hx with h1 | h2
  · rw [h1]
  · exact zipWith_mem_nonneg _ (fun a b => le_max_right _ _) values values.tail x h2

/-- All entries of the losses list are non-negative. -/
theorem lossesOf_nonneg (values : List ℚ) : ∀ x ∈ lossesOf values, 0 ≤ x := by
  intro x hx
  simp only [lossesOf] at hx
  rcases List.mem_cons.mp hx with h1 | h2
  · rw [h1]
  · exact zipWith_mem_nonneg _ (fun a b => abs_nonneg _) values values.tail x h2

/-- The sum of a window of a non-negative list is non-negative. -/
theorem sum_take_drop_nonneg (l : List ℚ) (hl : ∀ x ∈ l, 0 ≤ x) (a b : ℕ) :
    0 ≤ ((l.drop a).take b).sum :=
  List.sum_nonneg fun x hx => hl x (List.mem_of_mem_drop (List.mem_of_mem_take hx))

/-- C3: for every positive period and input of length at least `period + 1`,
`relative_strength_index` succeeds with one output per input, and every entry
at index at least `period` is defined (non-NaN) and lies in `[0, 100]`. -/
theorem rsi_defined_in_range (values : List ℚ) (period : ℕ)
    (hp : 0 < period) (hlen : period + 1 ≤ values.length) :
    ∃ l : List (Option ℚ), relative_strength_index values period = Except.ok l ∧
      l.length = values.length ∧
      ∀ i : ℕ, period ≤ i → ∀ hi : i < l.length,
        ∃ x : ℚ, l[i] = some x ∧ 0 ≤ x ∧ x ≤ 100 := by
  have hg := gainsOf_nonneg values
  have hlo := lossesOf_nonneg values
  have hpq : (0:ℚ) < (period : ℚ) := by exact_mod_cast hp
  set ag := (((gainsOf values).drop 1).take period).sum / (period : ℚ) with hag
  set al := (((lossesOf values).drop 1).take period).sum / (period : ℚ) with hal
  have hag0 : 0 ≤ ag := div_nonneg (sum_take_drop_nonneg _ hg 1 period) (le_of_lt hpq)
  have hal0 : 0 ≤ al := div_nonneg (sum_take_drop_nonneg _ hlo 1 period) (le_of_lt hpq)
  set rest := ((gainsOf values).drop (period + 1)).zip ((lossesOf values).drop (period + 1))
    with hrest
  have hrestmem : ∀ gl ∈ rest, 0 ≤ gl.1 ∧ 0 ≤ gl.2 := by
    intro gl hgl
    obtain ⟨g1, g2⟩ := gl
    rw [hrest] at hgl
    have hz := List.of_mem_zip hgl
    exact ⟨hg g1 (List.mem_of_mem_drop hz.1), hlo g2 (List.mem_of_mem_drop hz.2)⟩
  have heq : relative_strength_index values period =
      Except.ok (List.replicate period none ++
        some (computeRsi ag al) :: (rsiSmooth period ag al rest).map some) := by
    rw [hag, hal, hrest]
    simp only [relative_strength_index, if_neg (Nat.pos_iff_ne_zero.mp hp),
      if_neg (not_lt.mpr hlen)]
  have hgl2 : (gainsOf values).length = values.length := by
    simp only [gainsOf, List.length_cons, List.length_zipWith, List.length_tail]
    omega
  have hll2 : (lossesOf values).length = values.length := by
    simp only [lossesOf, List.length_cons, List.length_zipWith, List.length_tail]
    omega
  refine ⟨_, heq, ?_, ?_⟩
  · simp only [List.length_append, List.length_replicate, List.length_cons, List.length_map,
      rsiSmooth_length, hrest, List.length_zip, List.length_drop, hgl2, hll2]
    omega
  · intro i hpi hi
    rw [List.getElem_append_right (by simpa using hpi)]
    have hmem : ∀ x ∈ some (computeRsi ag al) :: (rsiSmooth period ag al rest).map some,
        ∃ v : ℚ, x = some v ∧ 0 ≤ v ∧ v ≤ 100 := by
      intro x hx
      rcases List.mem_cons.mp hx with h1 | h2
      · exact ⟨computeRsi ag al, h1, (computeRsi_bound ag al hag0 hal0).1,
          (computeRsi_bound ag al hag0 hal0).2⟩
      · obtain ⟨v, hv, hvx⟩ := List.mem_map.mp h2
        have hb := rsiSmooth_bound period hp rest hrestmem ag al hag0 hal0 v hv
        exact ⟨v, hvx.symm, hb.1, hb.2⟩
    exact hmem _ (List.getElem_mem _)

/-- Witness for C3 at the series `[1, 2, 3]` with period 2. -/
theorem rsi_defined_in_range_witness :
    0 < 2 ∧ 2 + 1 ≤ ([1, 2, 3] : List ℚ).length ∧
      (∃ l : List (Option ℚ), relative_strength_index [1, 2, 3] 2 = Except.ok l ∧
        l.length = ([1, 2, 3] : List ℚ).length ∧
        ∀ i : ℕ, 2 ≤ i → ∀ hi : i < l.length,
          ∃ x : ℚ, l[i] = some x ∧ 0 ≤ x ∧ x ≤ 100) :=
  ⟨by norm_num, by simp, rsi_defined_in_range [1, 2, 3] 2 (by norm_num) (by simp)⟩

/-- C9: for every positive period and equal-length inputs with fewer rows
than the period, `average_true_range` fails with IndexError rather than
either declared ValueError; and the dashboard recommendation builder, whose
try/except around its default-period-14 call catches only ValueError, lets
that IndexError escape. -/
theorem atr_short_input_index_error (highs lows closes : List ℚ) (period : ℕ)
    (hp : 0 < period) (hhl : highs.length = lows.length)
    (hlc : lows.length = closes.length) (hshort : highs.length < period) :
    average_true_range highs lows closes period = .error .indexError ∧
      (highs.length < 14 → recommendation_atr highs lows closes = .error .indexError) := by
  have main : ∀ p : ℕ, 0 < p → highs.length < p →
      average_true_range highs lows closes p = Except.error PyError.indexError := by
    intro p hp0 hs
    simp only [average_true_range, if_pos (And.intro hhl hlc),
      if_neg (Nat.pos_iff_ne_zero.mp hp0)]
    cases highs with
    | nil =>
        cases lows with
        | nil => rfl
        | cons l0 ltl => rfl
    | cons h0 htl =>
        cases lows with
        | nil => rfl
        | cons l0 ltl =>
            have hcond : ¬ (p - 1 < (h0 :: htl).length) := by
              simp only [List.length_cons] at hs ⊢
              omega
            simp only [if_neg hcond]
  refine ⟨main period hp hshort, fun h14 => ?_⟩
  unfold recommendation_atr
  rw [main 14 (by norm_num) h14]

/-- Witness for C9: single-row inputs with period 3 raise IndexError, and the
dashboard ATR block propagates it. -/
theorem atr_short_input_index_error_witness :
    average_true_range [1] [1] [1] 3 = .error .indexError ∧
      recommendation_atr [1] [1] [1] = .error .indexError := by
  have h := atr_short_input_index_error [1] [1] [1] 3 (by norm_num) (by simp) (by simp) (by simp)
  exact ⟨h.1, h.2 (by simp)⟩

/-- Witness for C10: one reading of score 1 from one source with smoothing
factor 1/5 yields a bounded aggregate. -/
theorem aggregate_sentiment_bounded_witness :
    (∀ r ∈ [SentimentReading.mk "a" 1], -1 ≤ r.score ∧ r.score ≤ 1) ∧
      (0:ℚ) ≤ 1/5 ∧ (1:ℚ)/5 ≤ 1 ∧
      (-1 ≤ aggregate_sentiment [SentimentReading.mk "a" 1] (1/5) ∧
        aggregate_sentiment [SentimentReading.mk "a" 1] (1/5) ≤ 1) := by
  refine ⟨?_, by norm_num, by norm_num, ?_⟩
  · intro r hr
    simp only [List.mem_singleton] at hr
    rw [hr]
    norm_num
  · refine aggregate_sentiment_bounded _ _ ?_ (by norm_num) (by norm_num)
    intro r hr
    simp only [List.mem_singleton] at hr
    rw [hr]
    norm_num

end CryptoAgent
